import Mathlib

/-!
# Verification of the buildkit Windows layer transcoder

Shallow embedding of the `ociwclayer` export/import transcoder
(`ExportLayer` / `writeTarFromLayer` / `ImportLayer` /
`tarToBackupStreamWithMutatedFiles`) and the snapshot `localMounter.Mount`
function, together with proofs of the spec's testable properties.

Names come from the source where Lean permits it.  Go standard-library
path helpers (`path.Clean`, `path.Base`, `path.Dir`, `path.Join`,
`strings.HasPrefix`) are modelled faithfully from their documented
lexical algorithms, operating on `String` via its underlying `List Char`.
-/

namespace OciWcLayer

/-! ## Model of Go's `path` package (forward-slash paths) -/

namespace GoPath

/-- Split a character list on `'/'`, keeping empty segments
(the list of segments `strings.Split(s, "/")` works with). -/
def splitSegs : List Char → List (List Char)
  | [] => [[]]
  | c :: cs =>
    match splitSegs cs with
    | [] => [[c]]
    | s :: ss => if c = '/' then [] :: s :: ss else (c :: s) :: ss

/-- Inverse of `splitSegs`: interleave `'/'` between segments. -/
def joinSegs : List (List Char) → List Char
  | [] => []
  | [s] => s
  | s :: ss => s ++ '/' :: joinSegs ss


/-- A plain path segment: nonempty, slash-free, and not one of the special
segments `"."` and `".."` that `path.Clean` rewrites. -/
def PlainSeg (s : List Char) : Prop :=
  s ≠ [] ∧ '/' ∉ s ∧ s ≠ ['.'] ∧ s ≠ ['.', '.']

instance (s : List Char) : Decidable (PlainSeg s) := by
  unfold PlainSeg; infer_instance

/-- One step of `path.Clean`'s segment processing: skip empty and `"."`
segments, pop on `".."` (or keep/drop it at the start depending on
rootedness), push everything else.  The accumulator is kept reversed. -/
def cleanPush (rooted : Bool) (acc : List (List Char)) (seg : List Char) :
    List (List Char) :=
  if seg = [] ∨ seg = ['.'] then acc
  else if seg = ['.', '.'] then
    match acc with
    | [] => if rooted then [] else [['.', '.']]
    | a :: rest => if a = ['.', '.'] then ['.', '.'] :: a :: rest else rest
  else seg :: acc

/-- Model of Go `path.Clean`: lexical simplification of a slash path. -/
def clean (s : String) : String :=
  match s.data with
  | [] => "."
  | c :: cs =>
    let rooted : Bool := c = '/'
    let out := ((splitSegs (c :: cs)).foldl (cleanPush rooted) []).reverse
    let body := joinSegs out
    if rooted then ⟨'/' :: body⟩
    else if body = [] then "." else ⟨body⟩

/-- `l` with trailing `'/'` characters removed. -/
def stripTrailingSlashes (l : List Char) : List Char :=
  (l.reverse.dropWhile (· = '/')).reverse

/-- The suffix of `l` after its last `'/'` (all of `l` if none). -/
def afterLastSlash (l : List Char) : List Char :=
  (l.reverse.takeWhile (· ≠ '/')).reverse

/-- The prefix of `l` up to and including its last `'/'`
(empty if `l` has no slash); Go `path.Split`'s first component. -/
def upToLastSlash (l : List Char) : List Char :=
  (l.reverse.dropWhile (· ≠ '/')).reverse

/-- Model of Go `path.Base`: the last element of the path. -/
def base (s : String) : String :=
  if s.data = [] then "."
  else
    let q := stripTrailingSlashes s.data
    if q = [] then "/" else ⟨afterLastSlash q⟩

/-- Model of Go `path.Dir`: all but the last element, cleaned. -/
def dirOf (s : String) : String :=
  clean ⟨upToLastSlash s.data⟩

/-- Model of Go `path.Join` on two elements. -/
def join2 (a b : String) : String :=
  if a ≠ "" then clean (a ++ "/" ++ b)
  else if b ≠ "" then clean b
  else ""

end GoPath


/-! ## Whiteout name convention -/

/-- `.wh.` marker: a basename carrying this marker encodes a deletion.
Source: `whiteoutPrefix` in `import.go`. -/
def whiteoutMarker : String := ".wh."

/-- Model of `strings.HasPrefix(s, ".wh.")` applied to a basename. -/
def hasWhiteoutMark (s : String) : Bool :=
  whiteoutMarker.data.isPrefixOf s.data

/-- Model of `base[len(whiteoutPrefix):]`: strip the 4-character marker. -/
def stripWhiteoutMark (s : String) : String :=
  ⟨s.data.drop 4⟩

/-- Export-side whiteout encoding (`writeTarFromLayer`, whiteout branch):
`Join(Dir(name), ".wh."+Base(name))` in slash form (the source computes
this with `filepath` and converts with `ToSlash`; on slash-form names the
two agree). -/
def exportWhiteoutName (name : String) : String :=
  GoPath.join2 (GoPath.dirOf name) (whiteoutMarker ++ GoPath.base name)

/-- The spec's encoder: `encode(dir, base) = dir/".wh."+base`. -/
def encodeWhiteout (dir b : String) : String :=
  dir ++ "/" ++ (whiteoutMarker ++ b)

/-- Import-side whiteout decoding (`ImportLayer` lines 107–111): when the
basename carries the `.wh.` marker, recover the directory and the original
basename; otherwise the entry is not a deletion marker. -/
def decodeWhiteout (name : String) : Option (String × String) :=
  let b := GoPath.base name
  if hasWhiteoutMark b then some (GoPath.dirOf name, stripWhiteoutMark b)
  else none

/-! ## Errors, archive entries and writer operations -/

/-- Error values: cancellation is a distinct kind; `io n` stands for any
other error an external collaborator can return. -/
inductive Err where
  | cancelled : Err
  | notImplemented : Err
  | io : Nat → Err
deriving DecidableEq, Repr

/-- Tar header type flag, as far as the importer inspects it
(`hdr.Typeflag == tar.TypeLink` is the only check). -/
inductive TFlag where
  | reg : TFlag
  | link : TFlag
deriving DecidableEq, Repr

/-- An archive entry: name, type flag, link target, declared size, opaque
native metadata, and the metadata-codec body (opaque bytes).
`backuptar.FileInfoFromHeader` is modelled at its interface as yielding the
entry's name, size and metadata; names stay in archive (slash) form — the
`filepath.FromSlash` conversion at the driver boundary is the identity on
the names as modelled. -/
structure TarEntry where
  name : String
  typeflag : TFlag
  linkname : String
  size : Int
  meta : Nat
  body : List Nat
deriving DecidableEq, Repr

/-- Operations the importer issues to the driver's layer writer. -/
inductive WriterOp where
  | add : String → Nat → WriterOp
  | write : List Nat → WriterOp
  | remove : String → WriterOp
  | addLink : String → String → WriterOp
  | close : WriterOp
deriving DecidableEq, Repr

/-- Wrap to a signed 64-bit value, the semantics of Go's `int64` addition. -/
def wrap64 (n : Int) : Int := (n + 2 ^ 63) % 2 ^ 64 - 2 ^ 63

/-! ## The importer (`ImportLayer`) -/

/-- The entry loop of `ImportLayer` (import.go lines 86–133).

State: `i` counts loop iterations (the cancellation signal `cancel` is
polled once per iteration, at the head); `entries` are the archive
entries still unread; `term` is what the reader reports after the last
entry (`none` = clean EOF, `some e` = stream error); `size` is the
accumulated total; `ops` are the writer operations issued so far.
`wErr` gives each writer operation's outcome.  Returns the issued
operations, the returned size, and the loop's error result.

A failed body copy (`tarToBackupStreamWithMutatedFiles` returning an
error) surfaces through `nextErr` on the following iteration, after one
more cancellation poll — the inlined `cancel (i + 1)` check mirrors that.
The body replay itself (driver byte sink plus the mutated-file guard) is
modelled separately by `tarToBackupStreamWithMutatedFiles` below; here it
is the single `write` operation. -/
def importLoop (cancel : Nat → Bool) (wErr : WriterOp → Option Err) :
    Nat → List TarEntry → Option Err → Int → List WriterOp →
    List WriterOp × Int × Option Err
  | i, entries, term, size, ops =>
    if cancel i then (ops, 0, some Err.cancelled)
    else
      match entries with
      | [] =>
        match term with
        | some e => (ops, 0, some e)
        | none => (ops, size, none)
      | e :: rest =>
        if hasWhiteoutMark (GoPath.base e.name) then
          let op := WriterOp.remove (GoPath.join2 (GoPath.dirOf e.name)
            (stripWhiteoutMark (GoPath.base e.name)))
          match wErr op with
          | some er => (ops ++ [op], 0, some er)
          | none => importLoop cancel wErr (i + 1) rest term size (ops ++ [op])
        else if e.typeflag = TFlag.link then
          let op := WriterOp.addLink e.name e.linkname
          match wErr op with
          | some er => (ops ++ [op], 0, some er)
          | none => importLoop cancel wErr (i + 1) rest term size (ops ++ [op])
        else
          let op := WriterOp.add e.name e.meta
          match wErr op with
          | some er => (ops ++ [op], 0, some er)
          | none =>
            let size' := wrap64 (size + e.size)
            let wop := WriterOp.write e.body
            match wErr wop with
            | some er =>
              if cancel (i + 1) then (ops ++ [op, wop], 0, some Err.cancelled)
              else (ops ++ [op, wop], 0, some er)
            | none => importLoop cancel wErr (i + 1) rest term size' (ops ++ [op, wop])

/-- Result of an `ImportLayer` invocation: issued writer operations
(`close` last, issued by the deferred finalizer), the returned size, the
returned error, and — for stating the error discipline — the entry
loop's own error. -/
structure ImportRes where
  ops : List WriterOp
  size : Int
  err : Option Err
  loopErr : Option Err
deriving DecidableEq, Repr

/-- The earlier error wins; the second is surfaced only if none earlier. -/
def firstSome (a b : Option Err) : Option Err :=
  match a with
  | some e => some e
  | none => b

/-- Model of `ImportLayer` (import.go lines 66–136) from the point where
the layer writer has been opened.  The deferred `w.Close()` always runs:
its error is surfaced only when the loop produced none, and — because
only `err`, not the named return `size`, is updated in the deferred
function — a close error after a clean loop accompanies the accumulated
size, not zero. -/
def ImportLayer (cancel : Nat → Bool) (wErr : WriterOp → Option Err)
    (closeErr : Option Err) (entries : List TarEntry) (term : Option Err) :
    ImportRes :=
  let r := importLoop cancel wErr 0 entries term 0 []
  { ops := r.1 ++ [WriterOp.close]
    size := r.2.1
    err := firstSome r.2.2 closeErr
    loopErr := r.2.2 }

/-- The operations a single archive entry maps to, per the importer's
classification: whiteout basename → remove (regardless of type flag);
link flag → addLink; otherwise add followed by the body replay. -/
def opsOfEntry (e : TarEntry) : List WriterOp :=
  if hasWhiteoutMark (GoPath.base e.name) then
    [WriterOp.remove (GoPath.join2 (GoPath.dirOf e.name)
      (stripWhiteoutMark (GoPath.base e.name)))]
  else if e.typeflag = TFlag.link then
    [WriterOp.addLink e.name e.linkname]
  else
    [WriterOp.add e.name e.meta, WriterOp.write e.body]

/-- An entry the importer treats as regular (neither whiteout nor link). -/
def isRegularEntry (e : TarEntry) : Bool :=
  !hasWhiteoutMark (GoPath.base e.name) && !(e.typeflag = TFlag.link)

/-! ## The exporter (`ExportLayer` / `writeTarFromLayer`) -/

/-- An entry yielded by the layer enumerator (`hcsshim.LayerReader.Next`):
name, declared size, native metadata (`none` = this layer's delta records a
deletion), and the metadata-codec body the reader streams for it. -/
structure EnumEntry where
  name : String
  size : Int
  info : Option Nat
  body : List Nat
deriving DecidableEq, Repr

/-- Events on the destination stream and the enumerator during export. -/
inductive ExpEv where
  | emit : TarEntry → ExpEv
  | trailer : ExpEv
  | readerClose : ExpEv
deriving DecidableEq, Repr

/-- The archive entry `writeTarFromLayer` produces for one enumerator
entry: absent metadata becomes a whiteout header (name only, no body);
present metadata becomes a regular entry via the backup-stream codec. -/
def exportStep (e : EnumEntry) : TarEntry :=
  match e.info with
  | none =>
    { name := exportWhiteoutName e.name, typeflag := TFlag.reg,
      linkname := "", size := 0, meta := 0, body := [] }
  | some m =>
    { name := e.name, typeflag := TFlag.reg, linkname := "",
      size := e.size, meta := m, body := e.body }

/-- The entry loop of `writeTarFromLayer` (export.go polyfill lines
76–109).  `emitErr` is the archive writer's outcome per emitted entry,
`trailerErr` the outcome of `t.Close()`.  Returns the stream events, the
function's error result, and whether the entry loop completed cleanly
(reached EOF and attempted the trailer). -/
def writeTarFromLayer (cancel : Nat → Bool) (emitErr : TarEntry → Option Err)
    (trailerErr : Option Err) :
    Nat → List EnumEntry → Option Err → List ExpEv →
    List ExpEv × Option Err × Bool
  | i, entries, term, evs =>
    if cancel i then (evs, some Err.cancelled, false)
    else
      match entries with
      | [] =>
        match term with
        | some e => (evs, some e, false)
        | none => (evs ++ [ExpEv.trailer], trailerErr, true)
      | e :: rest =>
        let t := exportStep e
        match emitErr t with
        | some er => (evs ++ [ExpEv.emit t], some er, false)
        | none =>
          writeTarFromLayer cancel emitErr trailerErr (i + 1) rest term
            (evs ++ [ExpEv.emit t])

/-- Result of an `ExportLayer` invocation (from the point where the layer
enumerator has been opened). -/
structure ExportRes where
  events : List ExpEv
  err : Option Err
  completed : Bool
deriving DecidableEq, Repr

/-- Model of `ExportLayer` (export polyfill lines 61–72) from the point
where `NewLayerReader` succeeded: run `writeTarFromLayer`, then close the
enumerator unconditionally; the write error wins over the close error
(`cerr` is returned only when `err` is nil). -/
def ExportLayer (cancel : Nat → Bool) (emitErr : TarEntry → Option Err)
    (trailerErr : Option Err) (rCloseErr : Option Err)
    (entries : List EnumEntry) (term : Option Err) : ExportRes :=
  let r := writeTarFromLayer cancel emitErr trailerErr 0 entries term []
  { events := r.1 ++ [ExpEv.readerClose]
    err := firstSome r.2.1 rCloseErr
    completed := r.2.2 }

/-- The archive entries carried by an export event stream. -/
def archiveOf (evs : List ExpEv) : List TarEntry :=
  evs.filterMap fun ev =>
    match ev with
    | ExpEv.emit t => some t
    | _ => none

/-- The writer operations the importer replays for one enumerator entry
when fed that entry's exported archive form (what claim round-trip
fidelity asks for): regular entries are added with identical name and
metadata and their body replayed unchanged; deletions remove the name. -/
def replayOfEnum (e : EnumEntry) : List WriterOp :=
  match e.info with
  | some m => [WriterOp.add e.name m, WriterOp.write e.body]
  | none => [WriterOp.remove e.name]

/-- Every `/`-separated segment of the name is plain (nonempty, slash-free,
not `.` or `..`): the well-formed archive names the transcoder round-trips. -/
def ValidSlashPath (n : String) : Prop :=
  ∀ s ∈ GoPath.splitSegs n.data, GoPath.PlainSeg s

instance (n : String) : Decidable (ValidSlashPath n) := by
  unfold ValidSlashPath; infer_instance

/-- A well-formed enumerator entry: its name is a valid slash path, and a
non-deletion entry's basename does not itself carry the whiteout marker
(else the importer would misread it as a deletion). -/
def ValidEnumEntry (e : EnumEntry) : Prop :=
  ValidSlashPath e.name ∧
    (e.info ≠ none → hasWhiteoutMark (GoPath.base e.name) = false)

instance (e : EnumEntry) : Decidable (ValidEnumEntry e) := by
  unfold ValidEnumEntry; infer_instance

/-! ## The mutated-file guard (`tarToBackupStreamWithMutatedFiles`) -/

/-- The fixed table of files mutated by the import process, which must be
backed up (import.go lines 46–55). -/
def mutatedFiles : List (String × String) :=
  [("UtilityVM/Files/EFI/Microsoft/Boot/BCD", "bcd.bak"),
   ("UtilityVM/Files/EFI/Microsoft/Boot/BCD.LOG", "bcd.log.bak"),
   ("UtilityVM/Files/EFI/Microsoft/Boot/BCD.LOG1", "bcd.log1.bak"),
   ("UtilityVM/Files/EFI/Microsoft/Boot/BCD.LOG2", "bcd.log2.bak")]

/-- Events of one body replay: backup file creation, per-chunk writes to
the driver writer and to the backup writer, the buffered-writer flush, and
the two backup closes (deferred, so they run before the next entry). -/
inductive BkEv where
  | createFile : String → BkEv
  | writeDriver : List Nat → BkEv
  | writeBackup : List Nat → BkEv
  | flushBuf : BkEv
  | closeWriter : BkEv
  | closeFile : BkEv
deriving DecidableEq, Repr

/-- Model of Windows `filepath.Join(root, rel)` for a clean root and a
plain relative name, as used for the backup file's location. -/
def joinNative (root rel : String) : String := root ++ "\\" ++ rel

/-- Model of `tarToBackupStreamWithMutatedFiles` (import.go lines 141–179)
as the event trace of one entry's body replay.  A name in the mutated-file
table gets a fresh backup file under `root` and every chunk fans out to
both sinks (`io.MultiWriter`); the deferred flush and closes run LIFO
before returning.  Any other name streams to the driver writer only. -/
def tarToBackupStreamWithMutatedFiles (root name : String)
    (chunks : List (List Nat)) : List BkEv :=
  match mutatedFiles.lookup name with
  | some backupPath =>
    BkEv.createFile (joinNative root backupPath)
      :: (chunks.flatMap fun c => [BkEv.writeDriver c, BkEv.writeBackup c])
      ++ [BkEv.flushBuf, BkEv.closeWriter, BkEv.closeFile]
  | none => (chunks.map BkEv.writeDriver) ++ [BkEv.flushBuf]

/-- The chunk a driver-writer event carries, if any. -/
def driverChunk (ev : BkEv) : Option (List Nat) :=
  match ev with
  | BkEv.writeDriver c => some c
  | _ => none

/-- The chunk a backup-file event carries, if any. -/
def backupChunk (ev : BkEv) : Option (List Nat) :=
  match ev with
  | BkEv.writeBackup c => some c
  | _ => none

/-! ## The snapshot mounter (`localMounter.Mount`) -/

/-- A containerd mount: type, source, and options (`part_002`). -/
structure GoMount where
  typ : String
  source : String
  options : List String
deriving DecidableEq, Repr

/-- Filesystem effects of one `localMounter.Mount` call. -/
inductive MountEv where
  | tempDirCreate : String → MountEv
  | mountAt : GoMount → String → MountEv
  | removeAll : String → MountEv
deriving DecidableEq, Repr

/-- Result of one `localMounter.Mount` call: the returned path and error,
`lm.target` after the call, and the filesystem effects. -/
structure MountRes where
  path : String
  err : Option Err
  target : String
  events : List MountEv
deriving DecidableEq, Repr

/-- Model of `localMounter.Mount` (part_002 lines 12–57).  `mountableRes`
is the effective mount list (`lm.mountable.Mount()`'s result, or the
cached `lm.mounts`); `tmp` the outcome of `ioutil.TempDir`; `mountErr`
the outcome of `m.Mount(dir)`; `target0` the value of `lm.target` before
the call. -/
def localMounterMount (mountableRes : Except Err (List GoMount))
    (tmp : Except Err String) (mountErr : GoMount → String → Option Err)
    (target0 : String) : MountRes :=
  match mountableRes with
  | Except.error e => { path := "", err := some e, target := target0, events := [] }
  | Except.ok mounts =>
    match mounts with
    | [m] =>
      if (m.typ = "bind" ∨ m.typ = "rbind") ∧ "ro" ∉ m.options then
        { path := m.source, err := none, target := target0, events := [] }
      else
        match tmp with
        | Except.error e =>
          { path := "", err := some e, target := target0, events := [] }
        | Except.ok dir =>
          match mountErr m dir with
          | some e =>
            { path := "", err := some e, target := target0,
              events := [MountEv.tempDirCreate dir, MountEv.mountAt m dir,
                MountEv.removeAll dir] }
          | none =>
            { path := dir, err := none, target := dir,
              events := [MountEv.tempDirCreate dir, MountEv.mountAt m dir] }
    | _ =>
      { path := "", err := some Err.notImplemented, target := target0,
        events := [] }

/-! ## Lemmas about the `path` model -/

namespace GoPath

theorem splitSegs_ne_nil (l : List Char) : splitSegs l ≠ [] := by
  cases l with
  | nil => simp [splitSegs]
  | cons c cs =>
    simp only [splitSegs]
    cases splitSegs cs with
    | nil => simp
    | cons s ss => by_cases h : c = '/' <;> simp [h]

theorem joinSegs_splitSegs (l : List Char) : joinSegs (splitSegs l) = l := by
  induction l with
  | nil => rfl
  | cons c cs ih =>
    simp only [splitSegs]
    rcases hs : splitSegs cs with _ | ⟨s, ss⟩
    · exact absurd hs (splitSegs_ne_nil cs)
    · by_cases h : c = '/'
      · subst h
        simp only [if_pos rfl, joinSegs]
        rw [hs] at ih
        cases ss <;> simpa [joinSegs] using ih
      · simp only [if_neg h]
        rw [hs] at ih
        cases ss <;> simpa [joinSegs] using ih

theorem splitSegs_append_slash (a b : List Char) (ha : '/' ∉ a) :
    splitSegs (a ++ '/' :: b) = a :: splitSegs b := by
  induction a with
  | nil =>
    simp only [List.nil_append, splitSegs]
    rcases hs : splitSegs b with _ | ⟨s, ss⟩
    · exact absurd hs (splitSegs_ne_nil b)
    · simp
  | cons c cs ih =>
    have hc : c ≠ '/' := fun h => ha (h ▸ List.mem_cons_self c cs)
    have ha' : '/' ∉ cs := fun h => ha (List.mem_cons_of_mem c h)
    simp only [List.cons_append, splitSegs, List.append_eq]
    rw [ih ha']
    simp [hc]

theorem splitSegs_no_slash (a : List Char) (ha : '/' ∉ a) :
    splitSegs a = [a] := by
  induction a with
  | nil => rfl
  | cons c cs ih =>
    have hc : c ≠ '/' := fun h => ha (h ▸ List.mem_cons_self c cs)
    have ha' : '/' ∉ cs := fun h => ha (List.mem_cons_of_mem c h)
    simp [splitSegs, ih ha', hc]

theorem splitSegs_append_single_slash (l : List Char) :
    splitSegs (l ++ ['/']) = splitSegs l ++ [[]] := by
  induction l with
  | nil => rfl
  | cons c cs ih =>
    simp only [List.cons_append, splitSegs, List.append_eq]
    rw [ih]
    rcases hs : splitSegs cs with _ | ⟨s, ss⟩
    · exact absurd hs (splitSegs_ne_nil cs)
    · by_cases h : c = '/' <;> simp [h]

theorem cleanPush_plain (r : Bool) (acc : List (List Char)) {s : List Char}
    (hs : PlainSeg s) : cleanPush r acc s = s :: acc := by
  obtain ⟨h1, _, h3, h4⟩ := hs
  simp [cleanPush, h1, h3, h4]

theorem foldl_cleanPush_plain (r : Bool) :
    ∀ (ss : List (List Char)) (acc : List (List Char)),
      (∀ s ∈ ss, PlainSeg s) → ss.foldl (cleanPush r) acc = ss.reverse ++ acc
  | [], _, _ => by simp
  | s :: ss, acc, h => by
    rw [List.foldl_cons, cleanPush_plain r acc (h s (List.mem_cons_self s ss)),
      foldl_cleanPush_plain r ss (s :: acc)
        (fun x hx => h x (List.mem_cons_of_mem s hx))]
    simp

theorem dropWhile_eq_self_of_forall {p : Char → Bool} :
    ∀ l : List Char, (∀ x ∈ l, p x = false) → l.dropWhile p = l
  | [], _ => rfl
  | c :: cs, h => by
    rw [List.dropWhile_cons, if_neg (by simp [h c (List.mem_cons_self c cs)])]

theorem dropWhile_eq_nil_of_forall {p : Char → Bool} :
    ∀ l : List Char, (∀ x ∈ l, p x = true) → l.dropWhile p = []
  | [], _ => rfl
  | c :: cs, h => by
    rw [List.dropWhile_cons, if_pos (by simp [h c (List.mem_cons_self c cs)])]
    exact dropWhile_eq_nil_of_forall cs fun x hx => h x (List.mem_cons_of_mem c hx)

theorem takeWhile_append_stop {p : Char → Bool} {y : Char} (hy : p y = false) :
    ∀ (a b : List Char), (∀ x ∈ a, p x = true) →
      (a ++ y :: b).takeWhile p = a
  | [], b, _ => by simp [List.takeWhile_cons, hy]
  | c :: cs, b, h => by
    rw [List.cons_append, List.takeWhile_cons,
      if_pos (by simp [h c (List.mem_cons_self c cs)]),
      takeWhile_append_stop hy cs b fun x hx => h x (List.mem_cons_of_mem c hx)]

theorem dropWhile_append_stop {p : Char → Bool} {y : Char} (hy : p y = false) :
    ∀ (a b : List Char), (∀ x ∈ a, p x = true) →
      (a ++ y :: b).dropWhile p = y :: b
  | [], b, _ => by simp [List.dropWhile_cons, hy]
  | c :: cs, b, h => by
    rw [List.cons_append, List.dropWhile_cons,
      if_pos (by simp [h c (List.mem_cons_self c cs)]),
      dropWhile_append_stop hy cs b fun x hx => h x (List.mem_cons_of_mem c hx)]

/-- `clean` is the identity on a nonempty relative path all of whose
segments are plain. -/
theorem clean_self {l : List Char} (h0 : l ≠ []) (hh : l.head? ≠ some '/')
    (hs : ∀ s ∈ splitSegs l, PlainSeg s) : clean ⟨l⟩ = ⟨l⟩ := by
  rcases l with _ | ⟨c, cs⟩
  · exact absurd rfl h0
  · have hc : (decide (c = '/')) = false := by
      simp only [decide_eq_false_iff_not]
      exact fun h => hh (by simp [h])
    simp only [clean, hc]
    rw [foldl_cleanPush_plain false (splitSegs (c :: cs)) [] hs]
    simp only [List.append_nil, List.reverse_reverse, joinSegs_splitSegs]
    have hb : c :: cs ≠ [] := List.cons_ne_nil c cs
    simp [hb]

/-- `clean` strips a single trailing slash from a plain relative path. -/
theorem clean_trailing_slash {l : List Char} (h0 : l ≠ [])
    (hh : l.head? ≠ some '/') (hs : ∀ s ∈ splitSegs l, PlainSeg s) :
    clean ⟨l ++ ['/']⟩ = ⟨l⟩ := by
  rcases l with _ | ⟨c, cs⟩
  · exact absurd rfl h0
  · have hc : (decide (c = '/')) = false := by
      simp only [decide_eq_false_iff_not]
      exact fun h => hh (by simp [h])
    show clean ⟨c :: (cs ++ ['/'])⟩ = _
    simp only [clean, hc]
    have hsplit : splitSegs (c :: (cs ++ ['/'])) = splitSegs (c :: cs) ++ [[]] := by
      have := splitSegs_append_single_slash (c :: cs)
      simpa using this
    rw [hsplit, List.foldl_append,
      foldl_cleanPush_plain false (splitSegs (c :: cs)) [] hs]
    simp only [List.foldl_cons, List.foldl_nil, cleanPush, if_pos (Or.inl rfl)]
    simp only [List.append_nil, List.reverse_reverse, joinSegs_splitSegs]
    have hb : c :: cs ≠ [] := List.cons_ne_nil c cs
    simp [joinSegs_splitSegs, hb]

/-- `clean` strips a leading `"./"` from a plain relative path. -/
theorem clean_dot_slash {l : List Char} (h0 : l ≠ [])
    (hs : ∀ s ∈ splitSegs l, PlainSeg s) :
    clean ⟨'.' :: '/' :: l⟩ = ⟨l⟩ := by
  have hc : (decide ('.' = '/')) = false := by decide
  simp only [clean, hc]
  have hsplit : splitSegs ('.' :: '/' :: l) = ['.'] :: splitSegs l :=
    splitSegs_append_slash ['.'] l (by decide)
  rw [hsplit, List.foldl_cons]
  have hdot : cleanPush false [] ['.'] = [] := by simp [cleanPush]
  rw [hdot, foldl_cleanPush_plain false (splitSegs l) [] hs]
  simp [joinSegs_splitSegs, h0]

theorem joinSegs_append_last (w : List Char) :
    ∀ (ss : List (List Char)), ss ≠ [] →
      joinSegs (ss ++ [w]) = joinSegs ss ++ '/' :: w
  | [], h => absurd rfl h
  | [s], _ => rfl
  | s :: s' :: ss, _ => by
    have ih := joinSegs_append_last w (s' :: ss) (List.cons_ne_nil s' ss)
    show s ++ '/' :: joinSegs ((s' :: ss) ++ [w]) = (s ++ '/' :: joinSegs (s' :: ss)) ++ '/' :: w
    rw [ih]
    simp

theorem splitSegs_joinSegs :
    ∀ ss : List (List Char), ss ≠ [] → (∀ s ∈ ss, '/' ∉ s) →
      splitSegs (joinSegs ss) = ss
  | [], h, _ => absurd rfl h
  | [s], _, h => splitSegs_no_slash s (h s (List.mem_cons_self s []))
  | s :: s' :: ss, _, h => by
    show splitSegs (s ++ '/' :: joinSegs (s' :: ss)) = _
    rw [splitSegs_append_slash s _ (h s (List.mem_cons_self s _)),
      splitSegs_joinSegs (s' :: ss) (List.cons_ne_nil s' ss)
        (fun x hx => h x (List.mem_cons_of_mem s hx))]

theorem joinSegs_head? {s : List Char} (ss : List (List Char)) (hs : s ≠ []) :
    (joinSegs (s :: ss)).head? = s.head? := by
  cases ss with
  | nil => rfl
  | cons s' ss' =>
    show (s ++ '/' :: joinSegs (s' :: ss')).head? = s.head?
    exact List.head?_append_of_ne_nil _ hs

theorem joinSegs_ne_nil {s : List Char} (ss : List (List Char)) (hs : s ≠ []) :
    joinSegs (s :: ss) ≠ [] := by
  cases ss with
  | nil => exact hs
  | cons s' ss' =>
    show s ++ '/' :: joinSegs (s' :: ss') ≠ []
    simp [hs]

theorem head?_ne_of_not_mem {a : Char} {l : List Char} (h : a ∉ l) :
    l.head? ≠ some a := by
  cases l with
  | nil => simp
  | cons c cs =>
    simp only [List.head?_cons, ne_eq, Option.some.injEq]
    exact fun hq => h (hq ▸ List.mem_cons_self c cs)

/-- `Base` of a path whose last segment is `w`: the `w` itself. -/
theorem base_joinSegs (ss : List (List Char)) {w : List Char} (hw1 : w ≠ [])
    (hw2 : '/' ∉ w) : base ⟨joinSegs (ss ++ [w])⟩ = ⟨w⟩ := by
  have hwr : ∀ x ∈ w.reverse, (decide (x = '/') : Bool) = false := by
    intro x hx
    simp only [decide_eq_false_iff_not]
    exact fun h => hw2 (h ▸ (List.mem_reverse.mp hx))
  cases ss with
  | nil =>
    show base ⟨w⟩ = ⟨w⟩
    have hdrop : w.reverse.dropWhile (fun x => x = '/') = w.reverse :=
      dropWhile_eq_self_of_forall w.reverse hwr
    have hq : stripTrailingSlashes w = w := by
      simp [stripTrailingSlashes, hdrop]
    have htake : w.reverse.takeWhile (fun x => !decide (x = '/')) = w.reverse := by
      rw [List.takeWhile_eq_self_iff]
      intro x hx
      rw [hwr x hx]
      rfl
    simp [base, hw1, hq, afterLastSlash, htake]
  | cons s ss' =>
    rw [joinSegs_append_last w (s :: ss') (List.cons_ne_nil s ss')]
    set l := joinSegs (s :: ss') with hl
    have hrev : (l ++ '/' :: w).reverse = w.reverse ++ '/' :: l.reverse := by
      simp
    have hne : l ++ '/' :: w ≠ [] := by simp
    have hq : stripTrailingSlashes (l ++ '/' :: w) = l ++ '/' :: w := by
      unfold stripTrailingSlashes
      rw [hrev]
      rcases hwr' : w.reverse with _ | ⟨x, xs⟩
      · exact absurd (by simpa using hwr') hw1
      · rw [List.cons_append, List.dropWhile_cons,
          if_neg (by simpa using hwr x (hwr' ▸ List.mem_cons_self x xs))]
        simp only [List.cons_append, List.reverse_cons, List.reverse_append,
          List.reverse_reverse]
        have h2 := congrArg List.reverse hwr'
        simp only [List.reverse_reverse, List.reverse_cons] at h2
        rw [h2]
        simp
    have hafter : afterLastSlash (l ++ '/' :: w) = w := by
      unfold afterLastSlash
      rw [hrev, takeWhile_append_stop (by simp) w.reverse l.reverse
        (fun x hx => by simpa using hwr x hx)]
      simp
    simp only [base, hq, hafter]
    rw [if_neg (by simpa using hne), if_neg (by simpa using hne)]

/-- `upToLastSlash` of a path whose last segment is `w`:
the directory part with its trailing slash. -/
theorem upToLastSlash_joinSegs (ss : List (List Char)) {w : List Char}
    (hss : ss ≠ []) (hw2 : '/' ∉ w) :
    upToLastSlash (joinSegs (ss ++ [w])) = joinSegs ss ++ ['/'] := by
  rw [joinSegs_append_last w ss hss]
  unfold upToLastSlash
  have hrev : (joinSegs ss ++ '/' :: w).reverse
      = w.reverse ++ '/' :: (joinSegs ss).reverse := by simp
  rw [hrev, dropWhile_append_stop (by simp) w.reverse (joinSegs ss).reverse
    (fun x hx => by
      simp only [decide_eq_true_eq]
      exact fun h => hw2 (h ▸ (List.mem_reverse.mp hx)))]
  simp

theorem upToLastSlash_no_slash {w : List Char} (hw2 : '/' ∉ w) :
    upToLastSlash w = [] := by
  unfold upToLastSlash
  rw [dropWhile_eq_nil_of_forall w.reverse (fun x hx => by
    simp only [decide_eq_true_eq]
    exact fun h => hw2 (h ▸ (List.mem_reverse.mp hx)))]
  rfl

/-- `Dir` of a single-segment path is `"."`. -/
theorem dirOf_single {w : List Char} (hw2 : '/' ∉ w) : dirOf ⟨w⟩ = "." := by
  unfold dirOf
  rw [upToLastSlash_no_slash hw2]
  rfl

/-- `Dir` of a path whose segments are `ss ++ [w]` with `ss` nonempty and
plain: the path spelled by `ss`. -/
theorem dirOf_joinSegs {s0 : List Char} (ss : List (List Char)) {w : List Char}
    (hss : ∀ x ∈ s0 :: ss, PlainSeg x) (hw2 : '/' ∉ w) :
    dirOf ⟨joinSegs ((s0 :: ss) ++ [w])⟩ = ⟨joinSegs (s0 :: ss)⟩ := by
  unfold dirOf
  rw [upToLastSlash_joinSegs (s0 :: ss) (List.cons_ne_nil s0 ss) hw2]
  have h0 : s0 ≠ [] := (hss s0 (List.mem_cons_self s0 ss)).1
  have hnoslash : ∀ x ∈ s0 :: ss, '/' ∉ x := fun x hx => (hss x hx).2.1
  apply clean_trailing_slash (joinSegs_ne_nil ss h0)
  · rw [joinSegs_head? ss h0]
    exact head?_ne_of_not_mem (hss s0 (List.mem_cons_self s0 ss)).2.1
  · rw [splitSegs_joinSegs (s0 :: ss) (List.cons_ne_nil s0 ss) hnoslash]
    exact hss

/-- `Join` glues a plain relative directory and a plain segment. -/
theorem join2_joinSegs {s0 : List Char} (ss : List (List Char)) {w : List Char}
    (hss : ∀ x ∈ s0 :: ss, PlainSeg x) (hw : PlainSeg w) :
    join2 ⟨joinSegs (s0 :: ss)⟩ ⟨w⟩ = ⟨joinSegs ((s0 :: ss) ++ [w])⟩ := by
  have h0 : s0 ≠ [] := (hss s0 (List.mem_cons_self s0 ss)).1
  have hne : (⟨joinSegs (s0 :: ss)⟩ : String) ≠ "" := by
    intro h
    exact joinSegs_ne_nil ss h0 (congrArg String.data h)
  have hdata : ((⟨joinSegs (s0 :: ss)⟩ : String) ++ "/" ++ ⟨w⟩).data
      = joinSegs ((s0 :: ss) ++ [w]) := by
    show (String.mk (joinSegs (s0 :: ss)) ++ String.mk ['/'] ++ String.mk w).data = _
    have : (String.mk (joinSegs (s0 :: ss)) ++ String.mk ['/'] ++ String.mk w)
        = String.mk (joinSegs (s0 :: ss) ++ ['/'] ++ w) := rfl
    rw [this, joinSegs_append_last w (s0 :: ss) (List.cons_ne_nil s0 ss)]
    simp
  unfold join2
  rw [if_pos hne]
  have : ((⟨joinSegs (s0 :: ss)⟩ : String) ++ "/" ++ ⟨w⟩)
      = ⟨joinSegs ((s0 :: ss) ++ [w])⟩ := by
    cases hmk : (⟨joinSegs (s0 :: ss)⟩ : String) ++ "/" ++ ⟨w⟩ with
    | mk d => rw [hmk] at hdata; exact congrArg String.mk hdata
  rw [this]
  apply clean_self
  · rw [joinSegs_append_last w (s0 :: ss) (List.cons_ne_nil s0 ss)]
    simp
  · rw [joinSegs_append_last w (s0 :: ss) (List.cons_ne_nil s0 ss),
      List.head?_append_of_ne_nil _ (joinSegs_ne_nil ss h0), joinSegs_head? ss h0]
    exact head?_ne_of_not_mem (hss s0 (List.mem_cons_self s0 ss)).2.1
  · rw [splitSegs_joinSegs ((s0 :: ss) ++ [w]) (by simp)
        (by
          intro x hx
          rcases List.mem_append.mp hx with h | h
          · exact (hss x h).2.1
          · rw [List.mem_singleton.mp h]; exact hw.2.1)]
    intro x hx
    rcases List.mem_append.mp hx with h | h
    · exact hss x h
    · rw [List.mem_singleton.mp h]; exact hw

/-- `Join "." w = w` for a plain segment `w`. -/
theorem join2_dot {w : List Char} (hw : PlainSeg w) :
    join2 "." ⟨w⟩ = ⟨w⟩ := by
  unfold join2
  rw [if_pos (by decide)]
  have : (("." : String) ++ "/" ++ ⟨w⟩) = ⟨'.' :: '/' :: w⟩ := rfl
  rw [this]
  apply clean_dot_slash hw.1
  rw [splitSegs_no_slash w hw.2.1]
  intro x hx
  rw [List.mem_singleton.mp hx]
  exact hw

end GoPath

/-! ## Whiteout encoding lemmas -/

theorem string_ext {a b : String} (h : a.data = b.data) : a = b := by
  cases a
  cases b
  exact congrArg String.mk h

theorem string_data_append (a b : String) : (a ++ b).data = a.data ++ b.data := by
  cases a
  cases b
  rfl

theorem plainSeg_marker_append {w : List Char} (hw : GoPath.PlainSeg w) :
    GoPath.PlainSeg ('.' :: 'w' :: 'h' :: '.' :: w) := by
  refine ⟨by simp, ?_, by simp, by simp⟩
  intro hmem
  simp only [List.mem_cons] at hmem
  rcases hmem with h | h | h | h | h
  · exact absurd h (by decide)
  · exact absurd h (by decide)
  · exact absurd h (by decide)
  · exact absurd h (by decide)
  · exact hw.2.1 h

theorem hasWhiteoutMark_marker_append (w : List Char) :
    hasWhiteoutMark ⟨'.' :: 'w' :: 'h' :: '.' :: w⟩ = true := by
  have : ('.' :: 'w' :: 'h' :: '.' :: w) = whiteoutMarker.data ++ w := rfl
  simp [hasWhiteoutMark, this, List.isPrefixOf_iff_prefix]

theorem stripWhiteoutMark_marker_append (w : List Char) :
    stripWhiteoutMark ⟨'.' :: 'w' :: 'h' :: '.' :: w⟩ = ⟨w⟩ := rfl

theorem marker_append_string (w : List Char) :
    whiteoutMarker ++ (⟨w⟩ : String) = ⟨'.' :: 'w' :: 'h' :: '.' :: w⟩ := rfl

/-- The export-side whiteout name of a valid path decodes on the import
side back to a removal of exactly that path: the basename carries the
marker, and rejoining the decoded directory with the stripped basename
reproduces the original name. -/
theorem whiteout_name_spec (n : String) (h : ValidSlashPath n) :
    hasWhiteoutMark (GoPath.base (exportWhiteoutName n)) = true
    ∧ GoPath.join2 (GoPath.dirOf (exportWhiteoutName n))
        (stripWhiteoutMark (GoPath.base (exportWhiteoutName n))) = n := by
  rcases List.eq_nil_or_concat (GoPath.splitSegs n.data) with hnil | ⟨ss, w, hsw⟩
  · exact absurd hnil (GoPath.splitSegs_ne_nil n.data)
  · rw [List.concat_eq_append] at hsw
    have hplain : ∀ s ∈ ss ++ [w], GoPath.PlainSeg s := by
      rw [← hsw]; exact h
    have hw : GoPath.PlainSeg w :=
      hplain w (List.mem_append_right ss (List.mem_singleton.mpr rfl))
    have hwhw : GoPath.PlainSeg ('.' :: 'w' :: 'h' :: '.' :: w) :=
      plainSeg_marker_append hw
    have hdata : n.data = GoPath.joinSegs (ss ++ [w]) := by
      rw [← hsw, GoPath.joinSegs_splitSegs]
    have hn : n = ⟨GoPath.joinSegs (ss ++ [w])⟩ := string_ext hdata
    cases ss with
    | nil =>
      have hn' : n = ⟨w⟩ := hn
      have hbase : GoPath.base n = ⟨w⟩ := by
        rw [hn']; exact GoPath.base_joinSegs [] hw.1 hw.2.1
      have hdir : GoPath.dirOf n = "." := by
        rw [hn']; exact GoPath.dirOf_single hw.2.1
      have hexp : exportWhiteoutName n = ⟨'.' :: 'w' :: 'h' :: '.' :: w⟩ := by
        rw [exportWhiteoutName, hbase, hdir, marker_append_string]
        exact GoPath.join2_dot hwhw
      have hbase2 : GoPath.base (exportWhiteoutName n)
          = ⟨'.' :: 'w' :: 'h' :: '.' :: w⟩ := by
        rw [hexp]; exact GoPath.base_joinSegs [] hwhw.1 hwhw.2.1
      have hdir2 : GoPath.dirOf (exportWhiteoutName n) = "." := by
        rw [hexp]; exact GoPath.dirOf_single hwhw.2.1
      refine ⟨?_, ?_⟩
      · rw [hbase2]; exact hasWhiteoutMark_marker_append w
      · rw [hbase2, hdir2, stripWhiteoutMark_marker_append, hn']
        exact GoPath.join2_dot hw
    | cons s0 ss' =>
      have hplain' : ∀ x ∈ s0 :: ss', GoPath.PlainSeg x := fun x hx =>
        hplain x (List.mem_append_left [w] hx)
      have hbase : GoPath.base n = ⟨w⟩ := by
        rw [hn]; exact GoPath.base_joinSegs (s0 :: ss') hw.1 hw.2.1
      have hdir : GoPath.dirOf n = ⟨GoPath.joinSegs (s0 :: ss')⟩ := by
        rw [hn]; exact GoPath.dirOf_joinSegs ss' hplain' hw.2.1
      have hexp : exportWhiteoutName n
          = ⟨GoPath.joinSegs ((s0 :: ss') ++ ['.' :: 'w' :: 'h' :: '.' :: w])⟩ := by
        rw [exportWhiteoutName, hbase, hdir, marker_append_string]
        exact GoPath.join2_joinSegs ss' hplain' hwhw
      have hbase2 : GoPath.base (exportWhiteoutName n)
          = ⟨'.' :: 'w' :: 'h' :: '.' :: w⟩ := by
        rw [hexp]; exact GoPath.base_joinSegs (s0 :: ss') hwhw.1 hwhw.2.1
      have hdir2 : GoPath.dirOf (exportWhiteoutName n)
          = ⟨GoPath.joinSegs (s0 :: ss')⟩ := by
        rw [hexp]; exact GoPath.dirOf_joinSegs ss' hplain' hwhw.2.1
      refine ⟨?_, ?_⟩
      · rw [hbase2]; exact hasWhiteoutMark_marker_append w
      · rw [hbase2, hdir2, stripWhiteoutMark_marker_append, hn]
        exact GoPath.join2_joinSegs ss' hplain' hw

/-- C2: decoding the encoded whiteout name `dir/".wh."+base` yields back
`(dir, base)` for every plain directory path `dir` and plain basename
`base`; and decoding is a no-op (no deletion is recognised) for any name
whose final path segment lacks the `.wh.` marker. -/
theorem c2_whiteout_symmetry :
    (∀ dir b : String, ValidSlashPath dir → GoPath.PlainSeg b.data →
      decodeWhiteout (encodeWhiteout dir b) = some (dir, b))
    ∧ (∀ x : String, hasWhiteoutMark (GoPath.base x) = false →
      decodeWhiteout x = none) := by
  constructor
  · intro dir b hd hb
    rcases hsegs0 : GoPath.splitSegs dir.data with _ | ⟨s0, ss⟩
    · exact absurd hsegs0 (GoPath.splitSegs_ne_nil dir.data)
    · have hplain : ∀ x ∈ s0 :: ss, GoPath.PlainSeg x := by
        rw [← hsegs0]; exact hd
      have hwhb : GoPath.PlainSeg ('.' :: 'w' :: 'h' :: '.' :: b.data) :=
        plainSeg_marker_append hb
      have hdirdata : dir.data = GoPath.joinSegs (s0 :: ss) := by
        rw [← hsegs0, GoPath.joinSegs_splitSegs]
      have hname : encodeWhiteout dir b
          = ⟨GoPath.joinSegs ((s0 :: ss) ++ ['.' :: 'w' :: 'h' :: '.' :: b.data])⟩ := by
        apply string_ext
        rw [encodeWhiteout, string_data_append, string_data_append,
          string_data_append,
          GoPath.joinSegs_append_last _ (s0 :: ss) (List.cons_ne_nil s0 ss),
          ← hdirdata]
        simp [whiteoutMarker]
      have hbase : GoPath.base (encodeWhiteout dir b)
          = ⟨'.' :: 'w' :: 'h' :: '.' :: b.data⟩ := by
        rw [hname]
        exact GoPath.base_joinSegs (s0 :: ss) hwhb.1 hwhb.2.1
      have hdir : GoPath.dirOf (encodeWhiteout dir b) = dir := by
        rw [hname, GoPath.dirOf_joinSegs ss hplain hwhb.2.1]
        exact (string_ext hdirdata).symm
      simp only [decodeWhiteout, hbase, hasWhiteoutMark_marker_append,
        if_pos rfl, stripWhiteoutMark_marker_append, hdir]
      exact congrArg some (congrArg (Prod.mk dir) (string_ext rfl))
  · intro x hx
    simp [decodeWhiteout, hx]

/-- Witness for C2 at concrete inputs. -/
theorem c2_whiteout_symmetry_witness :
    decodeWhiteout (encodeWhiteout "a/b" "c") = some ("a/b", "c")
    ∧ decodeWhiteout "a/b" = none :=
  ⟨c2_whiteout_symmetry.1 "a/b" "c" (by decide) (by decide),
   c2_whiteout_symmetry.2 "a/b" (by decide)⟩

/-! ## Import loop lemmas -/

theorem importLoop_cancel_hit {cancel : Nat → Bool} {wErr : WriterOp → Option Err}
    {i : Nat} {entries : List TarEntry} {term : Option Err} {size : Int}
    {ops : List WriterOp} (h : cancel i = true) :
    importLoop cancel wErr i entries term size ops = (ops, 0, some Err.cancelled) := by
  unfold importLoop
  rw [if_pos h]

theorem importLoop_eof {cancel : Nat → Bool} {wErr : WriterOp → Option Err}
    {i : Nat} {size : Int} {ops : List WriterOp} (h : cancel i = false) :
    importLoop cancel wErr i [] none size ops = (ops, size, none) := by
  unfold importLoop
  rw [if_neg (by simp [h])]

theorem importLoop_term {cancel : Nat → Bool} {wErr : WriterOp → Option Err}
    {i : Nat} {size : Int} {ops : List WriterOp} {er : Err} (h : cancel i = false) :
    importLoop cancel wErr i [] (some er) size ops = (ops, 0, some er) := by
  unfold importLoop
  rw [if_neg (by simp [h])]

theorem importLoop_cons_ok {cancel : Nat → Bool} {wErr : WriterOp → Option Err}
    {i : Nat} {term : Option Err} {size : Int} {ops : List WriterOp}
    (e : TarEntry) (rest : List TarEntry)
    (h : cancel i = false) (hop : ∀ op, wErr op = none) :
    importLoop cancel wErr i (e :: rest) term size ops
      = importLoop cancel wErr (i + 1) rest term
          (if isRegularEntry e then wrap64 (size + e.size) else size)
          (ops ++ opsOfEntry e) := by
  conv_lhs => rw [importLoop]
  rw [if_neg (by simp [h])]
  by_cases hw : hasWhiteoutMark (GoPath.base e.name)
  · simp [hw, hop, opsOfEntry, isRegularEntry]
  · by_cases hl : e.typeflag = TFlag.link
    · simp [hw, hl, hop, opsOfEntry, isRegularEntry]
    · simp [hw, hl, hop, opsOfEntry, isRegularEntry]

/-- Normal form of the import loop when nothing fails and nothing is
cancelled: the writer receives each entry's operations in stream order
and the size accumulates over the regular entries. -/
theorem importLoop_clean_run :
    ∀ (entries : List TarEntry) (i : Nat) (size : Int) (ops : List WriterOp),
      importLoop (fun _ => false) (fun _ => none) i entries none size ops
        = (ops ++ entries.flatMap opsOfEntry,
           entries.foldl
             (fun a e => if isRegularEntry e then wrap64 (a + e.size) else a) size,
           none)
  | [], i, size, ops => by
    rw [importLoop_eof rfl]
    simp
  | e :: rest, i, size, ops => by
    rw [importLoop_cons_ok e rest rfl (fun _ => rfl),
      importLoop_clean_run rest (i + 1) _ _]
    simp

/-- Normal form of the import loop when the cancellation signal first
trips at iteration `i + n` and the writer never fails: exactly the first
`n` entries are applied, the returned size is zero and the error is the
cancellation kind. -/
theorem importLoop_cancel_run :
    ∀ (n : Nat) (entries : List TarEntry) (i : Nat) (c : Nat → Bool)
      (term : Option Err) (size : Int) (ops : List WriterOp),
      (∀ j, j < n → c (i + j) = false) → c (i + n) = true →
      n ≤ entries.length →
      importLoop c (fun _ => none) i entries term size ops
        = (ops ++ (entries.take n).flatMap opsOfEntry, 0, some Err.cancelled)
  | 0, entries, i, c, term, size, ops, _, hn, _ => by
    have h : c i = true := by simpa using hn
    rw [importLoop_cancel_hit h]
    simp
  | n + 1, [], i, c, term, size, ops, hlt, hn, hlen => by
    simp at hlen
  | n + 1, e :: rest, i, c, term, size, ops, hlt, hn, hlen => by
    have h0 : c i = false := by simpa using hlt 0 (Nat.succ_pos n)
    rw [importLoop_cons_ok e rest h0 (fun _ => rfl),
      importLoop_cancel_run n rest (i + 1) c term _ _
        (fun j hj => by
          have h1 : i + 1 + j = i + (j + 1) := by omega
          rw [h1]
          exact hlt (j + 1) (by omega))
        (by
          have h2 : i + 1 + n = i + (n + 1) := by omega
          rw [h2]
          exact hn)
        (Nat.le_of_succ_le_succ (by simpa using hlen))]
    simp

theorem importLoop_cons_wh {cancel : Nat → Bool} {wErr : WriterOp → Option Err}
    {i : Nat} {term : Option Err} {size : Int} {ops : List WriterOp}
    (e : TarEntry) (rest : List TarEntry) (h : cancel i = false)
    (hw : hasWhiteoutMark (GoPath.base e.name) = true) :
    importLoop cancel wErr i (e :: rest) term size ops
      = match wErr (WriterOp.remove (GoPath.join2 (GoPath.dirOf e.name)
            (stripWhiteoutMark (GoPath.base e.name)))) with
        | some er =>
          (ops ++ [WriterOp.remove (GoPath.join2 (GoPath.dirOf e.name)
            (stripWhiteoutMark (GoPath.base e.name)))], 0, some er)
        | none =>
          importLoop cancel wErr (i + 1) rest term size
            (ops ++ [WriterOp.remove (GoPath.join2 (GoPath.dirOf e.name)
              (stripWhiteoutMark (GoPath.base e.name)))]) := by
  conv_lhs => rw [importLoop]
  rw [if_neg (by simp [h]), if_pos hw]

theorem importLoop_cons_link {cancel : Nat → Bool} {wErr : WriterOp → Option Err}
    {i : Nat} {term : Option Err} {size : Int} {ops : List WriterOp}
    (e : TarEntry) (rest : List TarEntry) (h : cancel i = false)
    (hw : hasWhiteoutMark (GoPath.base e.name) = false)
    (hl : e.typeflag = TFlag.link) :
    importLoop cancel wErr i (e :: rest) term size ops
      = match wErr (WriterOp.addLink e.name e.linkname) with
        | some er => (ops ++ [WriterOp.addLink e.name e.linkname], 0, some er)
        | none =>
          importLoop cancel wErr (i + 1) rest term size
            (ops ++ [WriterOp.addLink e.name e.linkname]) := by
  conv_lhs => rw [importLoop]
  rw [if_neg (by simp [h]), if_neg (by simp [hw]), if_pos hl]

theorem importLoop_cons_reg {cancel : Nat → Bool} {wErr : WriterOp → Option Err}
    {i : Nat} {term : Option Err} {size : Int} {ops : List WriterOp}
    (e : TarEntry) (rest : List TarEntry) (h : cancel i = false)
    (hw : hasWhiteoutMark (GoPath.base e.name) = false)
    (hl : ¬e.typeflag = TFlag.link) :
    importLoop cancel wErr i (e :: rest) term size ops
      = match wErr (WriterOp.add e.name e.meta) with
        | some er => (ops ++ [WriterOp.add e.name e.meta], 0, some er)
        | none =>
          match wErr (WriterOp.write e.body) with
          | some er =>
            if cancel (i + 1) then
              (ops ++ [WriterOp.add e.name e.meta, WriterOp.write e.body], 0,
                some Err.cancelled)
            else
              (ops ++ [WriterOp.add e.name e.meta, WriterOp.write e.body], 0,
                some er)
          | none =>
            importLoop cancel wErr (i + 1) rest term (wrap64 (size + e.size))
              (ops ++ [WriterOp.add e.name e.meta, WriterOp.write e.body]) := by
  conv_lhs => rw [importLoop]
  rw [if_neg (by simp [h]), if_neg (by simp [hw]), if_neg hl]

/-- Every error exit of the import loop carries size zero. -/
theorem importLoop_size_zero_or (entries : List TarEntry) :
    ∀ (cancel : Nat → Bool) (wErr : WriterOp → Option Err) (i : Nat)
      (term : Option Err) (size : Int) (ops : List WriterOp),
      (importLoop cancel wErr i entries term size ops).2.2 = none
      ∨ (importLoop cancel wErr i entries term size ops).2.1 = 0 := by
  induction entries with
  | nil =>
    intro cancel wErr i term size ops
    by_cases hc : cancel i = true
    · rw [importLoop_cancel_hit hc]
      exact Or.inr rfl
    · have hc' : cancel i = false := by simpa using hc
      cases term with
      | none =>
        rw [importLoop_eof hc']
        exact Or.inl rfl
      | some er =>
        rw [importLoop_term hc']
        exact Or.inr rfl
  | cons e rest ih =>
    intro cancel wErr i term size ops
    by_cases hc : cancel i = true
    · rw [importLoop_cancel_hit hc]
      exact Or.inr rfl
    · have hc' : cancel i = false := by simpa using hc
      by_cases hw : hasWhiteoutMark (GoPath.base e.name) = true
      · rw [importLoop_cons_wh e rest hc' hw]
        rcases hwe : wErr (WriterOp.remove (GoPath.join2 (GoPath.dirOf e.name)
            (stripWhiteoutMark (GoPath.base e.name)))) with _ | er
        · simp only [hwe]
          exact ih cancel wErr (i + 1) term size _
        · simp only [hwe]
          exact Or.inr trivial
      · have hw' : hasWhiteoutMark (GoPath.base e.name) = false := by
          simpa using hw
        by_cases hl : e.typeflag = TFlag.link
        · rw [importLoop_cons_link e rest hc' hw' hl]
          rcases hwe : wErr (WriterOp.addLink e.name e.linkname) with _ | er
          · simp only [hwe]
            exact ih cancel wErr (i + 1) term size _
          · simp only [hwe]
            exact Or.inr trivial
        · rw [importLoop_cons_reg e rest hc' hw' hl]
          rcases hwe : wErr (WriterOp.add e.name e.meta) with _ | er
          · simp only [hwe]
            rcases hwe2 : wErr (WriterOp.write e.body) with _ | er2
            · simp only [hwe2]
              exact ih cancel wErr (i + 1) term _ _
            · simp only [hwe2]
              by_cases hc2 : cancel (i + 1) = true
              · rw [if_pos hc2]
                exact Or.inr rfl
              · rw [if_neg (by simpa using hc2)]
                exact Or.inr rfl
          · simp only [hwe]
            exact Or.inr trivial

/-! ## Claims C3, C4, C5, C6 -/

theorem foldl_size_filter :
    ∀ (entries : List TarEntry) (a : Int),
      entries.foldl
          (fun a e => if isRegularEntry e then wrap64 (a + e.size) else a) a
        = (entries.filter isRegularEntry).foldl
            (fun a e => wrap64 (a + e.size)) a
  | [], a => rfl
  | e :: rest, a => by
    by_cases h : isRegularEntry e
    · simp only [List.foldl_cons, List.filter_cons, h, if_pos rfl]
      rw [foldl_size_filter rest _]
      simp [h]
    · simp only [List.foldl_cons, List.filter_cons]
      rw [foldl_size_filter rest _]
      simp [h]

/-- C3: on a well-formed stream with no failures and no cancellation, the
size `ImportLayer` returns is the (64-bit) sum of the declared sizes of
the entries it classifies as regular; whiteout and hardlink entries
contribute nothing. -/
theorem c3_size_accounting (entries : List TarEntry) (closeErr : Option Err) :
    (ImportLayer (fun _ => false) (fun _ => none) closeErr entries none).size
      = (entries.filter isRegularEntry).foldl
          (fun a e => wrap64 (a + e.size)) 0 := by
  unfold ImportLayer
  rw [importLoop_clean_run entries 0 0 []]
  exact foldl_size_filter entries 0

/-- C4 counterexample: a clean entry loop followed by a failing writer
close returns the accumulated size (here 2) together with the close
error — not size zero. -/
theorem c4_counterexample :
    (ImportLayer (fun _ => false) (fun _ => none) (some (Err.io 0))
        [{ name := "a.txt", typeflag := TFlag.reg, linkname := "",
           size := 2, meta := 5, body := [104, 105] }] none).err ≠ none
    ∧ (ImportLayer (fun _ => false) (fun _ => none) (some (Err.io 0))
        [{ name := "a.txt", typeflag := TFlag.reg, linkname := "",
           size := 2, meta := 5, body := [104, 105] }] none).size ≠ 0 := by
  decide

/-- C4 as amended: either the entry loop itself failed, in which case the
returned size is zero and that error is returned (any close error is
discarded), or the loop finished cleanly and `ImportLayer` returns the
writer-close outcome alongside the accumulated size. -/
theorem c4_error_size (cancel : Nat → Bool) (wErr : WriterOp → Option Err)
    (closeErr : Option Err) (entries : List TarEntry) (term : Option Err) :
    ((ImportLayer cancel wErr closeErr entries term).loopErr = none
      ∧ (ImportLayer cancel wErr closeErr entries term).err = closeErr)
    ∨ ((ImportLayer cancel wErr closeErr entries term).size = 0
      ∧ (ImportLayer cancel wErr closeErr entries term).err
          = (ImportLayer cancel wErr closeErr entries term).loopErr) := by
  unfold ImportLayer
  rcases h : (importLoop cancel wErr 0 entries term 0 []).2.2 with _ | e
  · left
    simp [firstSome, h]
  · right
    rcases importLoop_size_zero_or entries cancel wErr 0 term 0 [] with h0 | h0
    · rw [h] at h0
      cases h0
    · simp [firstSome, h, h0]

/-- C5: if the cancellation signal first trips at entry boundary `k`
(1-indexed: before the `k`-th entry is processed) and the writer itself
never fails, the import applies exactly the first `k − 1` entries'
operations, returns size 0 with the cancellation-kind error (any close
error is discarded), and the writer's close is still issued. -/
theorem c5_import_cancellation (k : Nat) (entries : List TarEntry)
    (closeErr : Option Err) (term : Option Err)
    (hk : 1 ≤ k) (hlen : k - 1 ≤ entries.length) :
    ImportLayer (fun i => decide (k - 1 ≤ i)) (fun _ => none) closeErr entries term
      = { ops := (entries.take (k - 1)).flatMap opsOfEntry ++ [WriterOp.close],
          size := 0, err := some Err.cancelled,
          loopErr := some Err.cancelled } := by
  unfold ImportLayer
  rw [importLoop_cancel_run (k - 1) entries 0 _ term 0 []
    (fun j hj => by
      simp only [Nat.zero_add, decide_eq_false_iff_not]
      omega)
    (by simp) hlen]
  rfl

/-- Witness for C5: trip at `k = 2` over three entries; exactly the first
entry's operations are applied, then close. -/
theorem c5_import_cancellation_witness :
    ImportLayer (fun i => decide (2 - 1 ≤ i)) (fun _ => none) (some (Err.io 3))
        [{ name := "a", typeflag := TFlag.reg, linkname := "", size := 4,
           meta := 1, body := [9] },
         { name := "b", typeflag := TFlag.reg, linkname := "", size := 5,
           meta := 2, body := [8] },
         { name := "c", typeflag := TFlag.reg, linkname := "", size := 6,
           meta := 3, body := [7] }] (some (Err.io 9))
      = { ops := (List.take (2 - 1)
            [{ name := "a", typeflag := TFlag.reg, linkname := "", size := 4,
               meta := 1, body := [9] },
             { name := "b", typeflag := TFlag.reg, linkname := "", size := 5,
               meta := 2, body := [8] },
             { name := "c", typeflag := TFlag.reg, linkname := "", size := 6,
               meta := 3, body := [7] }]).flatMap opsOfEntry ++ [WriterOp.close],
          size := 0, err := some Err.cancelled,
          loopErr := some Err.cancelled } :=
  c5_import_cancellation 2 _ (some (Err.io 3)) (some (Err.io 9))
    (by decide) (by decide)

/-- C6: an entry whose basename carries the `.wh.` marker is treated as a
deletion regardless of its type flag: even with the link flag set, the
writer receives a remove of `dir(name)/base-without-marker` (then the
deferred close), the entry contributes nothing to the size, and no
addLink is ever issued for it. -/
theorem c6_whiteout_precedence (e : TarEntry)
    (hwh : hasWhiteoutMark (GoPath.base e.name) = true)
    (hlink : e.typeflag = TFlag.link) :
    (ImportLayer (fun _ => false) (fun _ => none) none [e] none).ops
      = [WriterOp.remove (GoPath.join2 (GoPath.dirOf e.name)
          (stripWhiteoutMark (GoPath.base e.name))), WriterOp.close]
    ∧ (ImportLayer (fun _ => false) (fun _ => none) none [e] none).size = 0
    ∧ ∀ a b, WriterOp.addLink a b
        ∉ (ImportLayer (fun _ => false) (fun _ => none) none [e] none).ops := by
  unfold ImportLayer
  rw [importLoop_clean_run [e] 0 0 []]
  refine ⟨?_, ?_, ?_⟩
  · simp [opsOfEntry, hwh]
  · simp [isRegularEntry, hwh]
  · intro a b
    simp [opsOfEntry, hwh]

/-- Witness for C6 at a concrete link-flagged whiteout entry. -/
theorem c6_whiteout_precedence_witness :
    (ImportLayer (fun _ => false) (fun _ => none) none
        [{ name := "a/.wh.b", typeflag := TFlag.link, linkname := "t",
           size := 7, meta := 1, body := [1, 2] }] none).ops
      = [WriterOp.remove (GoPath.join2 (GoPath.dirOf "a/.wh.b")
          (stripWhiteoutMark (GoPath.base "a/.wh.b"))), WriterOp.close]
    ∧ (ImportLayer (fun _ => false) (fun _ => none) none
        [{ name := "a/.wh.b", typeflag := TFlag.link, linkname := "t",
           size := 7, meta := 1, body := [1, 2] }] none).size = 0
    ∧ ∀ a b, WriterOp.addLink a b
        ∉ (ImportLayer (fun _ => false) (fun _ => none) none
            [{ name := "a/.wh.b", typeflag := TFlag.link, linkname := "t",
               size := 7, meta := 1, body := [1, 2] }] none).ops :=
  c6_whiteout_precedence _ (by decide) rfl

/-! ## Export loop lemmas -/

theorem writeTar_cancel_hit {cancel : Nat → Bool} {emitErr : TarEntry → Option Err}
    {trailerErr : Option Err} {i : Nat} {entries : List EnumEntry}
    {term : Option Err} {evs : List ExpEv} (h : cancel i = true) :
    writeTarFromLayer cancel emitErr trailerErr i entries term evs
      = (evs, some Err.cancelled, false) := by
  unfold writeTarFromLayer
  rw [if_pos h]

theorem writeTar_eof {cancel : Nat → Bool} {emitErr : TarEntry → Option Err}
    {trailerErr : Option Err} {i : Nat} {evs : List ExpEv} (h : cancel i = false) :
    writeTarFromLayer cancel emitErr trailerErr i [] none evs
      = (evs ++ [ExpEv.trailer], trailerErr, true) := by
  unfold writeTarFromLayer
  rw [if_neg (by simp [h])]

theorem writeTar_term {cancel : Nat → Bool} {emitErr : TarEntry → Option Err}
    {trailerErr : Option Err} {i : Nat} {evs : List ExpEv} {er : Err}
    (h : cancel i = false) :
    writeTarFromLayer cancel emitErr trailerErr i [] (some er) evs
      = (evs, some er, false) := by
  unfold writeTarFromLayer
  rw [if_neg (by simp [h])]

theorem writeTar_cons_ok {cancel : Nat → Bool} {emitErr : TarEntry → Option Err}
    {trailerErr : Option Err} {i : Nat} {term : Option Err} {evs : List ExpEv}
    (e : EnumEntry) (rest : List EnumEntry) (h : cancel i = false)
    (he : emitErr (exportStep e) = none) :
    writeTarFromLayer cancel emitErr trailerErr i (e :: rest) term evs
      = writeTarFromLayer cancel emitErr trailerErr (i + 1) rest term
          (evs ++ [ExpEv.emit (exportStep e)]) := by
  conv_lhs => rw [writeTarFromLayer]
  rw [if_neg (by simp [h])]
  simp [he]

theorem writeTar_cons_err {cancel : Nat → Bool} {emitErr : TarEntry → Option Err}
    {trailerErr : Option Err} {i : Nat} {term : Option Err} {evs : List ExpEv}
    {er : Err} (e : EnumEntry) (rest : List EnumEntry) (h : cancel i = false)
    (he : emitErr (exportStep e) = some er) :
    writeTarFromLayer cancel emitErr trailerErr i (e :: rest) term evs
      = (evs ++ [ExpEv.emit (exportStep e)], some er, false) := by
  conv_lhs => rw [writeTarFromLayer]
  rw [if_neg (by simp [h])]
  simp [he]

/-- Normal form of the export loop when nothing fails and nothing is
cancelled: each enumerator entry's archive form is emitted in order and
the trailer terminates the stream. -/
theorem writeTar_clean_run :
    ∀ (entries : List EnumEntry) (i : Nat) (evs : List ExpEv),
      writeTarFromLayer (fun _ => false) (fun _ => none) none i entries none evs
        = (evs ++ (entries.map fun e => ExpEv.emit (exportStep e))
            ++ [ExpEv.trailer], none, true)
  | [], i, evs => by
    rw [writeTar_eof rfl]
    simp
  | e :: rest, i, evs => by
    rw [writeTar_cons_ok e rest rfl rfl, writeTar_clean_run rest (i + 1) _]
    simp

/-- The trailer appears in the export event stream exactly when the entry
loop completed cleanly. -/
theorem writeTar_trailer_iff (entries : List EnumEntry) :
    ∀ (cancel : Nat → Bool)
      (emitErr : TarEntry → Option Err) (trailerErr : Option Err) (i : Nat)
      (term : Option Err) (evs : List ExpEv), ExpEv.trailer ∉ evs →
      (ExpEv.trailer
          ∈ (writeTarFromLayer cancel emitErr trailerErr i entries term evs).1
        ↔ (writeTarFromLayer cancel emitErr trailerErr i entries term evs).2.2
            = true) := by
  induction entries with
  | nil =>
    intro cancel emitErr trailerErr i term evs hnt
    by_cases hc : cancel i = true
    · rw [writeTar_cancel_hit hc]
      simp [hnt]
    · have hc' : cancel i = false := by simpa using hc
      cases term with
      | none =>
        rw [writeTar_eof hc']
        simp
      | some er =>
        rw [writeTar_term hc']
        simp [hnt]
  | cons e rest ih =>
    intro cancel emitErr trailerErr i term evs hnt
    by_cases hc : cancel i = true
    · rw [writeTar_cancel_hit hc]
      simp [hnt]
    · have hc' : cancel i = false := by simpa using hc
      rcases hemit : emitErr (exportStep e) with _ | er
      · rw [writeTar_cons_ok e rest hc' hemit]
        exact ih cancel emitErr trailerErr (i + 1) term _ (by simp [hnt])
      · rw [writeTar_cons_err e rest hc' hemit]
        simp [hnt]

/-- C8: once the enumerator is open, every exit of `ExportLayer` closes
it; the archive trailer is attempted exactly when the entry loop
completed cleanly (on any loop error, cancellation included, the stream is
left unterminated); and the enumerator-close error is surfaced only when
the write phase produced none — otherwise the earlier error wins. -/
theorem c8_export_error_discipline (cancel : Nat → Bool)
    (emitErr : TarEntry → Option Err) (trailerErr rCloseErr : Option Err)
    (entries : List EnumEntry) (term : Option Err) :
    ExpEv.readerClose
        ∈ (ExportLayer cancel emitErr trailerErr rCloseErr entries term).events
    ∧ (ExpEv.trailer
          ∈ (ExportLayer cancel emitErr trailerErr rCloseErr entries term).events
        ↔ (ExportLayer cancel emitErr trailerErr rCloseErr entries term).completed
            = true)
    ∧ (ExportLayer cancel emitErr trailerErr rCloseErr entries term).err
        = firstSome
            (writeTarFromLayer cancel emitErr trailerErr 0 entries term []).2.1
            rCloseErr := by
  refine ⟨?_, ?_, rfl⟩
  · simp [ExportLayer]
  · have h := writeTar_trailer_iff entries cancel emitErr trailerErr 0 term []
      (by simp)
    simp only [ExportLayer, List.mem_append]
    constructor
    · rintro (hin | hin)
      · exact h.mp hin
      · simp at hin
    · intro hc
      exact Or.inl (h.mpr hc)

/-! ## Round-trip lemmas and C1 -/

theorem archiveOf_cons_emit (t : TarEntry) (l : List ExpEv) :
    archiveOf (ExpEv.emit t :: l) = t :: archiveOf l := by
  simp [archiveOf, List.filterMap_cons]

theorem archiveOf_cons_trailer (l : List ExpEv) :
    archiveOf (ExpEv.trailer :: l) = archiveOf l := by
  simp [archiveOf, List.filterMap_cons]

theorem archiveOf_cons_readerClose (l : List ExpEv) :
    archiveOf (ExpEv.readerClose :: l) = archiveOf l := by
  simp [archiveOf, List.filterMap_cons]

/-- The archive a clean export emits is `exportStep` of each entry. -/
theorem archiveOf_clean :
    ∀ es : List EnumEntry,
      archiveOf ((es.map fun e => ExpEv.emit (exportStep e))
          ++ [ExpEv.trailer] ++ [ExpEv.readerClose])
        = es.map exportStep
  | [] => rfl
  | e :: rest => by
    simp only [List.map_cons, List.cons_append, archiveOf_cons_emit]
    rw [← archiveOf_clean rest]

/-- How the importer treats one exported entry: a deletion round-trips to
a removal of the original name, a regular entry to an add of the same
name and metadata followed by its body, with its declared size counted. -/
theorem opsOf_exportStep (e : EnumEntry) (he : ValidEnumEntry e) :
    opsOfEntry (exportStep e) = replayOfEnum e
    ∧ isRegularEntry (exportStep e) = e.info.isSome
    ∧ (exportStep e).size = (if e.info.isSome then e.size else 0) := by
  rcases hinfo : e.info with _ | m
  · have hspec := whiteout_name_spec e.name he.1
    refine ⟨?_, ?_, ?_⟩
    · simp only [exportStep, hinfo, opsOfEntry, replayOfEnum]
      rw [if_pos hspec.1, hspec.2]
    · simp only [exportStep, hinfo, isRegularEntry]
      simp [hspec.1]
    · simp [exportStep, hinfo]
  · have hmark : hasWhiteoutMark (GoPath.base e.name) = false :=
      he.2 (by simp [hinfo])
    refine ⟨?_, ?_, ?_⟩
    · simp [exportStep, hinfo, opsOfEntry, replayOfEnum, hmark]
    · simp [exportStep, hinfo, isRegularEntry, hmark]
    · simp [exportStep, hinfo]

theorem archive_flatMap (es : List EnumEntry) (h : ∀ e ∈ es, ValidEnumEntry e) :
    (es.map exportStep).flatMap opsOfEntry = es.flatMap replayOfEnum := by
  induction es with
  | nil => rfl
  | cons e rest ih =>
    simp only [List.map_cons, List.flatMap_cons]
    rw [(opsOf_exportStep e (h e (List.mem_cons_self e rest))).1,
      ih fun x hx => h x (List.mem_cons_of_mem e hx)]

theorem archive_fold (es : List EnumEntry) (h : ∀ e ∈ es, ValidEnumEntry e) :
    ∀ a : Int,
      (es.map exportStep).foldl
          (fun a t => if isRegularEntry t then wrap64 (a + t.size) else a) a
        = (es.filter fun e => e.info.isSome).foldl
            (fun a e => wrap64 (a + e.size)) a := by
  induction es with
  | nil => intro a; rfl
  | cons e rest ih =>
    intro a
    obtain ⟨_, h2, h3⟩ := opsOf_exportStep e (h e (List.mem_cons_self e rest))
    have ih' := ih fun x hx => h x (List.mem_cons_of_mem e hx)
    simp only [List.map_cons, List.foldl_cons, List.filter_cons, h2, h3]
    by_cases hi : e.info.isSome = true
    · rw [if_pos hi, if_pos hi, if_pos hi, List.foldl_cons, ih']
    · have hi' : e.info.isSome = false := by simpa using hi
      rw [if_neg (by simp [hi']), if_neg (by simp [hi']), ih']

/-- C1: round-trip.  Exporting any valid enumerator entries and importing
the produced archive into a fresh layer replays, for every non-deletion
entry, an add with identical name and metadata followed by its identical
body, and a removal of the original name for every deletion marker — in
stream order, error-free, with the total size the sum of the regular
entries' declared sizes. -/
theorem c1_round_trip (es : List EnumEntry) (h : ∀ e ∈ es, ValidEnumEntry e) :
    (ImportLayer (fun _ => false) (fun _ => none) none
        (archiveOf (ExportLayer (fun _ => false) (fun _ => none) none none
          es none).events) none).ops
      = es.flatMap replayOfEnum ++ [WriterOp.close]
    ∧ (ImportLayer (fun _ => false) (fun _ => none) none
        (archiveOf (ExportLayer (fun _ => false) (fun _ => none) none none
          es none).events) none).err = none
    ∧ (ImportLayer (fun _ => false) (fun _ => none) none
        (archiveOf (ExportLayer (fun _ => false) (fun _ => none) none none
          es none).events) none).size
      = (es.filter fun e => e.info.isSome).foldl
          (fun a e => wrap64 (a + e.size)) 0 := by
  have harch : archiveOf (ExportLayer (fun _ => false) (fun _ => none) none none
      es none).events = es.map exportStep := by
    simp only [ExportLayer]
    rw [writeTar_clean_run es 0 []]
    simpa using archiveOf_clean es
  rw [harch]
  unfold ImportLayer
  rw [importLoop_clean_run (es.map exportStep) 0 0 []]
  refine ⟨?_, rfl, ?_⟩
  · show [] ++ (es.map exportStep).flatMap opsOfEntry ++ [WriterOp.close]
        = es.flatMap replayOfEnum ++ [WriterOp.close]
    rw [archive_flatMap es h]
    simp
  · exact archive_fold es h 0

/-- Witness for C1: one regular entry `a.txt` (body "hi", size 2) and one
deletion of `b.txt`. -/
theorem c1_round_trip_witness :
    (ImportLayer (fun _ => false) (fun _ => none) none
        (archiveOf (ExportLayer (fun _ => false) (fun _ => none) none none
          [{ name := "a.txt", size := 2, info := some 7, body := [104, 105] },
           { name := "b.txt", size := 0, info := none, body := [] }]
          none).events) none).ops
      = [{ name := "a.txt", size := 2, info := some 7,
           body := [104, 105] : EnumEntry },
         { name := "b.txt", size := 0, info := none,
           body := [] : EnumEntry }].flatMap replayOfEnum ++ [WriterOp.close]
    ∧ (ImportLayer (fun _ => false) (fun _ => none) none
        (archiveOf (ExportLayer (fun _ => false) (fun _ => none) none none
          [{ name := "a.txt", size := 2, info := some 7, body := [104, 105] },
           { name := "b.txt", size := 0, info := none, body := [] }]
          none).events) none).err = none
    ∧ (ImportLayer (fun _ => false) (fun _ => none) none
        (archiveOf (ExportLayer (fun _ => false) (fun _ => none) none none
          [{ name := "a.txt", size := 2, info := some 7, body := [104, 105] },
           { name := "b.txt", size := 0, info := none, body := [] }]
          none).events) none).size
      = ([{ name := "a.txt", size := 2, info := some 7,
            body := [104, 105] : EnumEntry },
          { name := "b.txt", size := 0, info := none,
            body := [] : EnumEntry }].filter fun e => e.info.isSome).foldl
          (fun a e => wrap64 (a + e.size)) 0 :=
  c1_round_trip _ (by decide)

/-! ## C7: the mutated-file guard -/

theorem filterMap_driver_pairs :
    ∀ chunks : List (List Nat),
      ((chunks.flatMap fun c => [BkEv.writeDriver c, BkEv.writeBackup c])
        ++ [BkEv.flushBuf, BkEv.closeWriter, BkEv.closeFile]).filterMap
          driverChunk = chunks
  | [] => rfl
  | c :: rest => by
    have ih := filterMap_driver_pairs rest
    show List.filterMap driverChunk (BkEv.writeDriver c :: BkEv.writeBackup c
      :: ((rest.flatMap fun c => [BkEv.writeDriver c, BkEv.writeBackup c])
        ++ [BkEv.flushBuf, BkEv.closeWriter, BkEv.closeFile])) = c :: rest
    rw [List.filterMap_cons, List.filterMap_cons]
    show c :: List.filterMap driverChunk _ = c :: rest
    rw [ih]

theorem filterMap_backup_pairs :
    ∀ chunks : List (List Nat),
      ((chunks.flatMap fun c => [BkEv.writeDriver c, BkEv.writeBackup c])
        ++ [BkEv.flushBuf, BkEv.closeWriter, BkEv.closeFile]).filterMap
          backupChunk = chunks
  | [] => rfl
  | c :: rest => by
    have ih := filterMap_backup_pairs rest
    show List.filterMap backupChunk (BkEv.writeDriver c :: BkEv.writeBackup c
      :: ((rest.flatMap fun c => [BkEv.writeDriver c, BkEv.writeBackup c])
        ++ [BkEv.flushBuf, BkEv.closeWriter, BkEv.closeFile])) = c :: rest
    rw [List.filterMap_cons, List.filterMap_cons]
    show c :: List.filterMap backupChunk _ = c :: rest
    rw [ih]

theorem filterMap_driver_map :
    ∀ chunks : List (List Nat),
      ((chunks.map BkEv.writeDriver) ++ [BkEv.flushBuf]).filterMap driverChunk
        = chunks
  | [] => rfl
  | c :: rest => by
    have ih := filterMap_driver_map rest
    show List.filterMap driverChunk (BkEv.writeDriver c
      :: ((rest.map BkEv.writeDriver) ++ [BkEv.flushBuf])) = c :: rest
    rw [List.filterMap_cons]
    show c :: List.filterMap driverChunk _ = c :: rest
    rw [ih]

/-- C7: for a regular entry whose name exactly matches a key of the fixed
mutated-file table, every decoded body chunk reaches both the driver
writer and a freshly created backup file named by the table under the
layer root, and the replay ends with the flush and the two backup closes
— before the importer proceeds.  For any other name the body reaches only
the driver writer: no backup file is created and nothing is written to
one. -/
theorem c7_mutated_file_guard (root name : String) (chunks : List (List Nat)) :
    (∀ bp, mutatedFiles.lookup name = some bp →
      (tarToBackupStreamWithMutatedFiles root name chunks).filterMap
          backupChunk = chunks
      ∧ (tarToBackupStreamWithMutatedFiles root name chunks).filterMap
          driverChunk = chunks
      ∧ BkEv.createFile (joinNative root bp)
          ∈ tarToBackupStreamWithMutatedFiles root name chunks
      ∧ (tarToBackupStreamWithMutatedFiles root name chunks).getLast?
          = some BkEv.closeFile
      ∧ BkEv.flushBuf ∈ tarToBackupStreamWithMutatedFiles root name chunks)
    ∧ (mutatedFiles.lookup name = none →
      (tarToBackupStreamWithMutatedFiles root name chunks).filterMap
          driverChunk = chunks
      ∧ (∀ c, BkEv.writeBackup c
          ∉ tarToBackupStreamWithMutatedFiles root name chunks)
      ∧ ∀ p, BkEv.createFile p
          ∉ tarToBackupStreamWithMutatedFiles root name chunks) := by
  constructor
  · intro bp hbp
    simp only [tarToBackupStreamWithMutatedFiles, hbp]
    refine ⟨?_, ?_, ?_, ?_, ?_⟩
    · exact filterMap_backup_pairs chunks
    · exact filterMap_driver_pairs chunks
    · exact List.mem_append_left _ (List.mem_cons_self _ _)
    · rw [List.getLast?_append]
      rfl
    · exact List.mem_append_right _ (by simp)
  · intro hnone
    simp only [tarToBackupStreamWithMutatedFiles, hnone]
    refine ⟨filterMap_driver_map chunks, ?_, ?_⟩
    · intro c hc
      rcases List.mem_append.mp hc with hin | hin
      · rcases List.mem_map.mp hin with ⟨x, _, hx⟩
        cases hx
      · simp at hin
    · intro p hp
      rcases List.mem_append.mp hp with hin | hin
      · rcases List.mem_map.mp hin with ⟨x, _, hx⟩
        cases hx
      · simp at hin

/-- Witness for C7 at a matching and at a non-matching name. -/
theorem c7_mutated_file_guard_witness :
    ((tarToBackupStreamWithMutatedFiles "C:\\layer"
        "UtilityVM/Files/EFI/Microsoft/Boot/BCD" [[1], [2]]).filterMap
          backupChunk = [[1], [2]]
      ∧ (tarToBackupStreamWithMutatedFiles "C:\\layer"
          "UtilityVM/Files/EFI/Microsoft/Boot/BCD" [[1], [2]]).filterMap
            driverChunk = [[1], [2]]
      ∧ BkEv.createFile (joinNative "C:\\layer" "bcd.bak")
          ∈ tarToBackupStreamWithMutatedFiles "C:\\layer"
              "UtilityVM/Files/EFI/Microsoft/Boot/BCD" [[1], [2]]
      ∧ (tarToBackupStreamWithMutatedFiles "C:\\layer"
          "UtilityVM/Files/EFI/Microsoft/Boot/BCD" [[1], [2]]).getLast?
            = some BkEv.closeFile
      ∧ BkEv.flushBuf ∈ tarToBackupStreamWithMutatedFiles "C:\\layer"
          "UtilityVM/Files/EFI/Microsoft/Boot/BCD" [[1], [2]])
    ∧ ((tarToBackupStreamWithMutatedFiles "C:\\layer" "a.txt"
          [[1], [2]]).filterMap driverChunk = [[1], [2]]
      ∧ (∀ c, BkEv.writeBackup c
          ∉ tarToBackupStreamWithMutatedFiles "C:\\layer" "a.txt" [[1], [2]])
      ∧ ∀ p, BkEv.createFile p
          ∉ tarToBackupStreamWithMutatedFiles "C:\\layer" "a.txt" [[1], [2]]) :=
  ⟨(c7_mutated_file_guard "C:\\layer" "UtilityVM/Files/EFI/Microsoft/Boot/BCD"
      [[1], [2]]).1 "bcd.bak" (by decide),
   (c7_mutated_file_guard "C:\\layer" "a.txt" [[1], [2]]).2 (by decide)⟩

/-! ## C9, C10: the snapshot mounter -/

/-- C9: a single non-read-only bind or rbind mount is returned by source
with no filesystem effect and no new materialization target; every other
single mount materializes at the directory freshly created by this call
(which, the temp-dir supply being fresh, is no previously used target)
and records the create and mount effects in order. -/
theorem c9_single_mount_policy (m : GoMount) (tmp : Except Err String)
    (mountErr : GoMount → String → Option Err) (target0 : String) :
    ((m.typ = "bind" ∨ m.typ = "rbind") ∧ "ro" ∉ m.options →
      localMounterMount (Except.ok [m]) tmp mountErr target0
        = { path := m.source, err := none, target := target0, events := [] })
    ∧ (∀ dir : String,
        ¬((m.typ = "bind" ∨ m.typ = "rbind") ∧ "ro" ∉ m.options) →
        tmp = Except.ok dir → mountErr m dir = none →
        localMounterMount (Except.ok [m]) tmp mountErr target0
          = { path := dir, err := none, target := dir,
              events := [MountEv.tempDirCreate dir, MountEv.mountAt m dir] }
        ∧ ∀ used : List String, dir ∉ used →
            (localMounterMount (Except.ok [m]) tmp mountErr target0).target
              ∉ used) := by
  constructor
  · intro hfast
    show (if (m.typ = "bind" ∨ m.typ = "rbind") ∧ "ro" ∉ m.options then
        ({ path := m.source, err := none, target := target0,
           events := [] } : MountRes)
      else
        match tmp with
        | Except.error e =>
          { path := "", err := some e, target := target0, events := [] }
        | Except.ok dir =>
          match mountErr m dir with
          | some e =>
            { path := "", err := some e, target := target0,
              events := [MountEv.tempDirCreate dir, MountEv.mountAt m dir,
                MountEv.removeAll dir] }
          | none =>
            { path := dir, err := none, target := dir,
              events := [MountEv.tempDirCreate dir, MountEv.mountAt m dir] })
      = { path := m.source, err := none, target := target0, events := [] }
    rw [if_pos hfast]
  · intro dir hslow htmp hok
    subst htmp
    have hres : localMounterMount (Except.ok [m]) (Except.ok dir) mountErr target0
        = { path := dir, err := none, target := dir,
            events := [MountEv.tempDirCreate dir, MountEv.mountAt m dir] } := by
      show (if (m.typ = "bind" ∨ m.typ = "rbind") ∧ "ro" ∉ m.options then
          ({ path := m.source, err := none, target := target0,
             events := [] } : MountRes)
        else
          match mountErr m dir with
          | some e =>
            { path := "", err := some e, target := target0,
              events := [MountEv.tempDirCreate dir, MountEv.mountAt m dir,
                MountEv.removeAll dir] }
          | none =>
            { path := dir, err := none, target := dir,
              events := [MountEv.tempDirCreate dir, MountEv.mountAt m dir] })
        = { path := dir, err := none, target := dir,
            events := [MountEv.tempDirCreate dir, MountEv.mountAt m dir] }
      rw [if_neg hslow, hok]
    refine ⟨hres, ?_⟩
    intro used hused
    rw [hres]
    exact hused

/-- Witness for C9: a non-read-only bind mount is returned directly; a
read-only bind mount is materialized at the fresh directory. -/
theorem c9_single_mount_policy_witness :
    localMounterMount
        (Except.ok [{ typ := "bind", source := "C:\\src", options := [] }])
        (Except.ok "T:\\tmp1") (fun _ _ => none) ""
      = { path := "C:\\src", err := none, target := "", events := [] }
    ∧ localMounterMount
        (Except.ok [{ typ := "bind", source := "C:\\src", options := ["ro"] }])
        (Except.ok "T:\\tmp1") (fun _ _ => none) ""
      = { path := "T:\\tmp1", err := none, target := "T:\\tmp1",
          events := [MountEv.tempDirCreate "T:\\tmp1",
            MountEv.mountAt
              { typ := "bind", source := "C:\\src", options := ["ro"] }
              "T:\\tmp1"] } :=
  ⟨(c9_single_mount_policy _ _ _ _).1 (by decide),
   ((c9_single_mount_policy _ _ _ _).2 "T:\\tmp1" (by decide) rfl rfl).1⟩

/-- C10: every failing `localMounter.Mount` call returns the empty path,
leaves `lm.target` unchanged, and removes any temporary directory it
created. -/
theorem c10_mount_error (mountableRes : Except Err (List GoMount))
    (tmp : Except Err String) (mountErr : GoMount → String → Option Err)
    (target0 : String)
    (h : (localMounterMount mountableRes tmp mountErr target0).err ≠ none) :
    (localMounterMount mountableRes tmp mountErr target0).path = ""
    ∧ (localMounterMount mountableRes tmp mountErr target0).target = target0
    ∧ ∀ d, MountEv.tempDirCreate d
          ∈ (localMounterMount mountableRes tmp mountErr target0).events →
        MountEv.removeAll d
          ∈ (localMounterMount mountableRes tmp mountErr target0).events := by
  rcases mountableRes with e | mounts
  · exact ⟨rfl, rfl, by intro d hd; simp [localMounterMount] at hd⟩
  · rcases mounts with _ | ⟨m, _ | ⟨m2, ms⟩⟩
    · exact ⟨rfl, rfl, by intro d hd; simp [localMounterMount] at hd⟩
    · by_cases hfast : (m.typ = "bind" ∨ m.typ = "rbind") ∧ "ro" ∉ m.options
      · exfalso
        apply h
        simp only [localMounterMount]
        rw [if_pos hfast]
      · rcases tmp with te | dir
        · refine ⟨?_, ?_, ?_⟩
          · simp only [localMounterMount]
            rw [if_neg hfast]
          · simp only [localMounterMount]
            rw [if_neg hfast]
          · intro d hd
            simp only [localMounterMount] at hd
            rw [if_neg hfast] at hd
            simp at hd
        · rcases hme : mountErr m dir with _ | me
          · exfalso
            apply h
            simp only [localMounterMount]
            rw [if_neg hfast, hme]
          · refine ⟨?_, ?_, ?_⟩
            · simp only [localMounterMount]
              rw [if_neg hfast, hme]
            · simp only [localMounterMount]
              rw [if_neg hfast, hme]
            · intro d hd
              simp only [localMounterMount] at hd ⊢
              rw [if_neg hfast, hme] at hd ⊢
              simp only [List.mem_cons] at hd
              rcases hd with hd | hd | hd
              · cases hd
                simp
              · cases hd
              · simp at hd
    · exact ⟨rfl, rfl, by intro d hd; simp [localMounterMount] at hd⟩

/-- Witness for C10: a mountable yielding zero mounts fails with the
not-implemented error, empty path, unchanged target, no effects. -/
theorem c10_mount_error_witness :
    (localMounterMount (Except.ok []) (Except.ok "T:\\tmp1") (fun _ _ => none)
        "old").path = ""
    ∧ (localMounterMount (Except.ok []) (Except.ok "T:\\tmp1") (fun _ _ => none)
        "old").target = "old"
    ∧ ∀ d, MountEv.tempDirCreate d
          ∈ (localMounterMount (Except.ok []) (Except.ok "T:\\tmp1")
              (fun _ _ => none) "old").events →
        MountEv.removeAll d
          ∈ (localMounterMount (Except.ok []) (Except.ok "T:\\tmp1")
              (fun _ _ => none) "old").events :=
  c10_mount_error _ _ _ _ (by decide)

example : GoPath.clean "a/b/" = "a/b" := by decide
example : GoPath.clean "/.." = "/" := by decide
example : GoPath.clean "a/../b" = "b" := by decide
example : GoPath.base "a/b.txt" = "b.txt" := by decide
example : GoPath.dirOf "a/b/c" = "a/b" := by decide
example : GoPath.dirOf "c" = "." := by decide
example : GoPath.join2 "." "a.txt" = "a.txt" := by decide
example : decodeWhiteout "a/.wh.b" = some ("a", "b") := by decide
example : decodeWhiteout "a/b" = none := by decide
example : exportWhiteoutName "a/b" = "a/.wh.b" := by decide
example : exportWhiteoutName "b.txt" = ".wh.b.txt" := by decide
example : decodeWhiteout ".wh.b.txt" = some (".", "b.txt") := by decide
example : GoPath.join2 "." "b.txt" = "b.txt" := by decide

end OciWcLayer
